import Mathlib

/-!
Shallow embedding of the fuzzy line matcher of the `lang_tester` crate
(`src/fuzzy.rs`), together with the parts of Rust's string library that it
uses (`str::trim`, `str::lines`, `str::starts_with`, `str::ends_with`).

Lines are modelled as lists of characters (`RLine`); the whole captured
stream is a `String` whose character list is normalized exactly as the Rust
code does before matching.
-/

namespace LangTester

/-- A line of text, as a list of characters (embedding a Rust `&str` slice). -/
abbrev RLine := List Char

/-- Rust `char::is_whitespace`: the Unicode `White_Space` property
(U+0009–U+000D, U+0020, U+0085, U+00A0, U+1680, U+2000–U+200A, U+2028,
U+2029, U+202F, U+205F, U+3000). -/
def rustWhitespace (c : Char) : Bool :=
  c == ' ' || c == '\t' || c == '\n' || c == Char.ofNat 0xB || c == Char.ofNat 0xC ||
  c == '\r' || c == Char.ofNat 0x85 || c == Char.ofNat 0xA0 || c == Char.ofNat 0x1680 ||
  (0x2000 ≤ c.toNat && c.toNat ≤ 0x200A) || c == Char.ofNat 0x2028 || c == Char.ofNat 0x2029 ||
  c == Char.ofNat 0x202F || c == Char.ofNat 0x205F || c == Char.ofNat 0x3000

/-- Rust `str::trim_start`: remove leading whitespace. -/
def trimStart (l : List Char) : List Char := l.dropWhile rustWhitespace

/-- Rust `str::trim_end`: remove trailing whitespace. -/
def trimEnd (l : List Char) : List Char := l.rdropWhile rustWhitespace

/-- Rust `str::trim`: remove leading and trailing whitespace. -/
def trimChars (l : List Char) : List Char := trimEnd (trimStart l)

/-- Split a character list at every newline character, keeping empty
segments (the result always has one more segment than there are newlines). -/
def splitNl : List Char → List (List Char)
  | [] => [[]]
  | c :: cs =>
    if c = '\n' then [] :: splitNl cs
    else
      match splitNl cs with
      | [] => [[c]]
      | h :: t => (c :: h) :: t

/-- Remove one trailing carriage return, if present. -/
def stripCr (l : List Char) : List Char :=
  match l.getLast? with
  | some c => if c = '\r' then l.dropLast else l
  | none => l

/-- Rust `str::lines`: split at `\n`, strip a `\r` preceding each `\n`, and
do not produce a final empty line for a trailing line terminator. The last
segment is not `\n`-terminated, so it keeps a trailing `\r`. -/
def rustLines (l : List Char) : List (List Char) :=
  let parts := splitNl l
  let front := (parts.dropLast).map stripCr
  match parts.getLast? with
  | some [] => front
  | some lastPart => front ++ [lastPart]
  | none => front

/-- The normalization `s.trim().lines().map(|x| x.trim())` applied by
`match_vec` to the actual text before any comparison. -/
def splitTrim (l : List Char) : List (List Char) :=
  (rustLines (trimChars l)).map trimChars

/-- The `WILDCARD` constant `"..."` of `src/fuzzy.rs`. -/
def wildcard : RLine := ['.', '.', '.']

/-- `match_line` of `src/fuzzy.rs`:
`(p.starts_with(WILDCARD) && s.ends_with(&p[WILDCARD.len()..])) || p == s`. -/
def matchLine (p s : RLine) : Bool :=
  (wildcard.isPrefixOf p && (p.drop wildcard.length).isSuffixOf s) || p == s

/-- The cursor loop of `match_vec` of `src/fuzzy.rs`, expressed on the
remaining pattern lines and the remaining actual lines. `none` models the
`panic!` on two consecutive wildcard lines; `some b` models `return b` /
the final `true`. The inner scan-forward loop is the `dropWhile`. -/
def matchVecAux : List RLine → List RLine → Option Bool
  | [], _ => some true
  | _ :: _, [] => some true
  | p :: ps, s :: ss =>
    if p = wildcard then
      match ps with
      | [] => some true
      | p2 :: ps2 =>
        if p2 = wildcard then none
        else
          match (s :: ss).dropWhile (fun t => !(matchLine p2 t)) with
          | [] => some false
          | m :: rest => matchVecAux (p2 :: ps2) (m :: rest)
    else if matchLine p s then matchVecAux ps ss
    else some false

/-- `match_vec` of `src/fuzzy.rs`: normalize the actual text, then run the
cursor loop. `none` models the `panic!`, `some b` a normal return of `b`. -/
def matchVec (plines : List RLine) (s : String) : Option Bool :=
  matchVecAux plines (splitTrim s.data)

/-- The same cursor loop, indexed by the number of outer-loop iterations
still allowed (`none` = iteration budget exhausted, `some r` = the loop
finished with result `r`). Used to state that the loop terminates. -/
def matchVecFuel : Nat → List RLine → List RLine → Option (Option Bool)
  | 0, _, _ => none
  | _ + 1, [], _ => some (some true)
  | _ + 1, _ :: _, [] => some (some true)
  | fuel + 1, p :: ps, s :: ss =>
    if p = wildcard then
      match ps with
      | [] => some (some true)
      | p2 :: ps2 =>
        if p2 = wildcard then some none
        else
          match (s :: ss).dropWhile (fun t => !(matchLine p2 t)) with
          | [] => some (some false)
          | m :: rest => matchVecFuel fuel (p2 :: ps2) (m :: rest)
    else if matchLine p s then matchVecFuel fuel ps ss
    else some (some false)

/-- No two consecutive pattern lines are both the literal wildcard. -/
def noConsecWild : List RLine → Bool
  | p :: q :: rest => !(p = wildcard && q = wildcard) && noConsecWild (q :: rest)
  | _ => true

/-! Sanity checks replicating the unit tests of `src/fuzzy.rs`
(`test_match_vec`, with patterns written out as line lists the way the
test helper's `p.lines().collect()` produces them). -/

example : matchVec [] "" = some true := by decide
example : matchVec [] "\n" = some true := by decide
example : matchVec [[]] "\n" = some true := by decide
example : matchVec [['a']] "a" = some true := by decide
example : matchVec [wildcard, ['a']] "a" = some true := by decide
example : matchVec [wildcard, ['a'], wildcard] "a" = some true := by decide
example : matchVec [['a'], wildcard] "a" = some true := by decide
example : matchVec [['a'], wildcard, ['d']] "a\nd" = some true := by decide
example : matchVec [['a'], wildcard, ['d']] "a\nb\nc\nd" = some true := by decide
example : matchVec [['a'], wildcard, ['d']] "a\nb\nc" = some false := by decide
example : matchVec [['a'], wildcard, ['c'], wildcard, ['e']] "a\nb\nc\nd\ne" = some true := by
  decide
example : matchVec [['a'], wildcard, ['.', '.', '.', 'b']] "a\nb" = some true := by decide

/-! Helper lemmas. -/

/-- When a pattern line does not begin with the wildcard token, `match_line`
degenerates to exact equality of the two lines. -/
theorem matchLine_eq_beq (p s : RLine) (h : wildcard.isPrefixOf p = false) :
    matchLine p s = (p == s) := by
  simp [matchLine, h]

/-- On patterns with no wildcard-marked line, the cursor loop answers `true`
exactly when one of the two line sequences is a prefix of the other. -/
theorem matchVecAux_noWild (ps : List RLine) (ss : List RLine)
    (h : ∀ p ∈ ps, wildcard.isPrefixOf p = false) :
    matchVecAux ps ss = some true ↔
      (ps.isPrefixOf ss = true ∨ ss.isPrefixOf ps = true) := by
  induction ps generalizing ss with
  | nil => simp [matchVecAux]
  | cons p ps ih =>
    cases ss with
    | nil => simp [matchVecAux]
    | cons s ss =>
      have hp : wildcard.isPrefixOf p = false := h p (List.mem_cons_self p ps)
      have hpw : p ≠ wildcard := by
        intro he
        rw [he] at hp
        simp [wildcard, List.isPrefixOf] at hp
      have hrest : ∀ q ∈ ps, wildcard.isPrefixOf q = false := fun q hq =>
        h q (List.mem_cons_of_mem p hq)
      by_cases hps : p = s
      · subst hps
        have hm : matchVecAux (p :: ps) (p :: ss) = matchVecAux ps ss := by
          rw [matchVecAux.eq_def]
          simp [hpw, matchLine]
        rw [hm, ih ss hrest]
        simp [List.cons_prefix_cons]
      · have hb : (p == s) = false := beq_eq_false_iff_ne.mpr hps
        have hm : matchVecAux (p :: ps) (s :: ss) = some false := by
          rw [matchVecAux.eq_def]
          simp [hpw, matchLine_eq_beq p s hp, hb]
        rw [hm]
        simp [List.cons_prefix_cons, hps, Ne.symm hps]

/-- If every element of a list satisfies `q`, `dropWhile q` empties it. -/
theorem dropWhile_all {α : Type} (q : α → Bool) (l : List α)
    (h : ∀ x ∈ l, q x = true) : l.dropWhile q = [] :=
  List.dropWhile_eq_nil_iff.mpr h

/-- `dropWhile` stops exactly at the first element failing `q`. -/
theorem dropWhile_first_stop {α : Type} (q : α → Bool) (l1 : List α) (m : α) (l2 : List α)
    (h1 : ∀ x ∈ l1, q x = true) (hm : q m = false) :
    (l1 ++ m :: l2).dropWhile q = m :: l2 := by
  induction l1 with
  | nil => simp [List.dropWhile_cons, hm]
  | cons a l ih =>
    have ha : q a = true := h1 a (List.mem_cons_self a l)
    have hl : ∀ x ∈ l, q x = true := fun x hx => h1 x (List.mem_cons_of_mem a hx)
    simp [List.dropWhile_cons, ha, ih hl]

/-- A list left unchanged by `dropWhile` has all its front parts unchanged. -/
theorem dropWhile_eq_self_of_append {α : Type} (q : α → Bool) (w t z : List α)
    (hw : w ++ t = z) (hz : List.dropWhile q z = z) : List.dropWhile q w = w := by
  cases w with
  | nil => rfl
  | cons a w' =>
    cases z with
    | nil => simp at hw
    | cons b z' =>
      have hab : a = b ∧ w' ++ t = z' := by simpa using hw
      have hqb : ¬(q b = true) := by
        have h0 := List.dropWhile_eq_self_iff.mp hz
        simpa using h0 (by simp)
      have hqa : q a = false := by
        rw [hab.1]
        exact Bool.eq_false_iff.mpr hqb
      simp [List.dropWhile_cons, hqa]

/-- `str::trim` is idempotent. -/
theorem trimChars_idem (l : List Char) : trimChars (trimChars l) = trimChars l := by
  have h1 : List.dropWhile rustWhitespace (trimStart l) = trimStart l := by
    simp [trimStart, List.dropWhile_idempotent]
  obtain ⟨t, ht⟩ := List.rdropWhile_prefix rustWhitespace (trimStart l)
  have h3 : List.dropWhile rustWhitespace (trimEnd (trimStart l)) = trimEnd (trimStart l) :=
    dropWhile_eq_self_of_append rustWhitespace _ t _ ht h1
  show trimEnd (trimStart (trimEnd (trimStart l))) = trimEnd (trimStart l)
  rw [show trimStart (trimEnd (trimStart l)) = trimEnd (trimStart l) from h3]
  exact List.rdropWhile_idempotent rustWhitespace (trimStart l)

/-- The fuel-indexed loop finishes, agreeing with the total model, whenever
the allowed number of outer iterations exceeds the number of pattern lines:
each outer iteration consumes at least one pattern line. -/
theorem matchVecFuel_complete (ps : List RLine) :
    ∀ fuel : Nat, ps.length < fuel →
      ∀ ss : List RLine, matchVecFuel fuel ps ss = some (matchVecAux ps ss) := by
  induction ps with
  | nil =>
    intro fuel hf ss
    cases fuel with
    | zero => exact absurd hf (by simp)
    | succ f => cases ss <;> rfl
  | cons p ps ih =>
    intro fuel hf ss
    cases fuel with
    | zero => exact absurd hf (by simp)
    | succ f =>
      have hlen : ps.length < f := by
        simp [List.length_cons] at hf
        omega
      cases ss with
      | nil => rfl
      | cons s ss =>
        cases ps with
        | nil =>
          by_cases hw : p = wildcard
          · simp [matchVecFuel, matchVecAux, hw]
          · by_cases hm : matchLine p s = true
            · simp [matchVecFuel, matchVecAux, hw, hm]
              exact ih f hlen ss
            · simp [matchVecFuel, matchVecAux, hw, hm]
        | cons p2 ps2 =>
          by_cases hw : p = wildcard
          · by_cases hw2 : p2 = wildcard
            · simp [matchVecFuel, matchVecAux, hw, hw2]
            · rcases hd : (s :: ss).dropWhile (fun t => !(matchLine p2 t)) with _ | ⟨m, rest⟩
              · simp [matchVecFuel, matchVecAux, hw, hw2, hd]
              · simp [matchVecFuel, matchVecAux, hw, hw2, hd]
                exact ih f hlen (m :: rest)
          · by_cases hm : matchLine p s = true
            · simp [matchVecFuel, matchVecAux, hw, hm]
              exact ih f hlen ss
            · simp [matchVecFuel, matchVecAux, hw, hm]

/-! Claim theorems. -/

/-- C1 counterexample: the pattern `["a"]` has no wildcard line, yet
`match_vec(["a"], "a\nb")` returns `true` although the trimmed line-split
form of `"a\nb"` is `["a", "b"]`, not `["a"]` - an exhausted pattern with
leftover actual lines passes, so matching is not exact sequence equality. -/
theorem c1_counterexample :
    wildcard.isPrefixOf ['a'] = false ∧
      matchVec [['a']] "a\nb" = some true ∧
      splitTrim ("a\nb").data ≠ [['a']] := by
  refine ⟨by decide, by decide, by decide⟩

/-- C1 (amended): for every pattern none of whose lines begins with the
wildcard token, `match_vec(P, s)` returns `true` iff the trimmed,
line-split, per-line-trimmed form of `s` and `P` are each a prefix of the
other - exact equality is not required, since exhausting either sequence
passes. -/
theorem c1_no_wildcard_iff (ps : List RLine) (s : String)
    (h : ∀ p ∈ ps, wildcard.isPrefixOf p = false) :
    matchVec ps s = some true ↔
      (ps.isPrefixOf (splitTrim s.data) = true ∨
        (splitTrim s.data).isPrefixOf ps = true) :=
  matchVecAux_noWild ps (splitTrim s.data) h

theorem c1_witness : matchVec [['a']] "a" = some true :=
  (c1_no_wildcard_iff [['a']] "a" (by decide)).mpr (Or.inl (by decide))

/-- C2: `match_line` implements only the suffix-match form (a pattern line
beginning with the wildcard token matches an actual line ending with the
rest), not the prefix-match form promised by the crate documentation: the
pattern line `"a..."` fails against the actual line `"ab"`, although the
documentation of `lib.rs` says a line ending in `...` matches the start of
the line. -/
theorem c2_match_line_forms :
    matchLine ['.', '.', '.', 'b'] ['a', 'b'] = true ∧
      matchLine ['a', '.', '.', '.'] ['a', 'b'] = false := by
  refine ⟨by decide, by decide⟩

/-- C3 counterexample: with two consecutive literal wildcard lines,
`match_vec` does not always fail fatally - it returns `true` when the
actual lines are exhausted before the pair is examined, both for empty
actual text and for a mismatch-free run that consumes all actual lines. -/
theorem c3_counterexample :
    matchVec [wildcard, wildcard] "" = some true ∧
      matchVec [['a'], ['b'], wildcard, wildcard] "a" = some true := by
  refine ⟨by decide, by decide⟩

/-- C3 (amended): when the pattern begins with two consecutive literal
wildcard lines and the normalized actual text has at least one line, the
matcher reaches the pair and fails fatally (the `panic!`), returning
neither `true` nor `false`; if the actual lines run out before a
consecutive wildcard pair is examined, `match_vec` returns normally. -/
theorem c3_consecutive_wildcards_fatal (rest : List RLine) (s : String)
    (h : splitTrim s.data ≠ []) :
    matchVec (wildcard :: wildcard :: rest) s = none := by
  unfold matchVec
  rcases he : splitTrim s.data with _ | ⟨x, xs⟩
  · exact absurd he h
  · simp [matchVecAux]

theorem c3_witness : matchVec [wildcard, wildcard] "x" = none :=
  c3_consecutive_wildcards_fatal [] "x" (by decide)

/-- C4: exiting the cursor loop because either sequence is exhausted is
always a pass - in particular, exhausted actual lines with unconsumed
pattern lines still yield `true`. -/
theorem c4_exhaustion_passes (ps ss : List RLine) (h : ps = [] ∨ ss = []) :
    matchVecAux ps ss = some true := by
  rcases h with h | h
  · subst h
    cases ss <;> rfl
  · subst h
    cases ps <;> rfl

theorem c4_witness : matchVecAux [['a'], ['b']] [] = some true :=
  c4_exhaustion_passes [['a'], ['b']] [] (Or.inr rfl)

/-- C5: after consuming a non-final literal wildcard pattern line, the
matcher advances the actual cursor to the first actual line satisfying
`match_line` against the following pattern line (first satisfying line
wins, with no backtracking), and returns `false` when no actual line
satisfies it before the actual lines are exhausted. -/
theorem c5_wildcard_scan_first_match (p2 : RLine) (ps2 : List RLine) (s : RLine)
    (ss : List RLine) (hw : p2 ≠ wildcard) :
    ((∀ x ∈ s :: ss, matchLine p2 x = false) →
        matchVecAux (wildcard :: p2 :: ps2) (s :: ss) = some false) ∧
      (∀ ss1 m ss2, s :: ss = ss1 ++ m :: ss2 →
        (∀ x ∈ ss1, matchLine p2 x = false) → matchLine p2 m = true →
        matchVecAux (wildcard :: p2 :: ps2) (s :: ss) =
          matchVecAux (p2 :: ps2) (m :: ss2)) := by
  constructor
  · intro hall
    have hd : (s :: ss).dropWhile (fun t => !(matchLine p2 t)) = [] :=
      dropWhile_all _ _ (fun x hx => by simp [hall x hx])
    simp [matchVecAux, hw, hd]
  · intro ss1 m ss2 hdec h1 hm
    have hd : (s :: ss).dropWhile (fun t => !(matchLine p2 t)) = m :: ss2 := by
      rw [hdec]
      exact dropWhile_first_stop _ _ _ _ (fun x hx => by simp [h1 x hx]) (by simp [hm])
    simp [matchVecAux, hw, hd]

theorem c5_witness :
    matchVecAux [wildcard, ['a']] [['b'], ['a'], ['c']] =
      matchVecAux [['a']] [['a'], ['c']] :=
  (c5_wildcard_scan_first_match ['a'] [] ['b'] [['a'], ['c']] (by decide)).2
    [['b']] ['a'] [['c']] rfl (by decide) (by decide)

/-- C6: once advancing past a literal wildcard line exhausts the pattern,
the loop returns `true` immediately, whatever (including zero) actual
lines remain. -/
theorem c6_trailing_wildcard (ss : List RLine) :
    matchVecAux [wildcard] ss = some true := by
  cases ss <;> rfl

/-- C7: the pattern consisting solely of the literal wildcard line matches
every actual string, including the empty one. -/
theorem c7_sole_wildcard (s : String) : matchVec [wildcard] s = some true := by
  unfold matchVec
  generalize splitTrim s.data = ss
  cases ss <;> rfl

/-- C8: `match_vec` compares only the normalized actual text - the whole
string trimmed, split into lines, each line trimmed (so every compared
line is trim-invariant) - and `match_line` on wildcard-free pattern lines
is exact, case-sensitive equality. -/
theorem c8_normalization_and_case :
    (∀ (ps : List RLine) (s : String),
        matchVec ps s = matchVecAux ps ((rustLines (trimChars s.data)).map trimChars)) ∧
      (∀ (s : String) (l : RLine), l ∈ splitTrim s.data → trimChars l = l) ∧
      (∀ p s : RLine, wildcard.isPrefixOf p = false → (matchLine p s = true ↔ p = s)) := by
  refine ⟨fun ps s => rfl, ?_, ?_⟩
  · intro s l hl
    have hl' : l ∈ (rustLines (trimChars s.data)).map trimChars := hl
    obtain ⟨x, hx, rfl⟩ := List.mem_map.mp hl'
    exact trimChars_idem x
  · intro p s hp
    rw [matchLine_eq_beq p s hp]
    exact beq_iff_eq

theorem c8_witness : trimChars ['a'] = ['a'] :=
  c8_normalization_and_case.2.1 "a" ['a'] (by decide)

/-- C9: the empty pattern matches every actual string - the cursor loop
never runs and the fall-through result is a pass. -/
theorem c9_empty_pattern (s : String) : matchVec [] s = some true := by
  unfold matchVec
  generalize splitTrim s.data = ss
  cases ss <;> rfl

/-- C10: on any pattern without two consecutive literal wildcard lines,
the cursor loop finishes within one more outer iteration than there are
pattern lines - each iteration consumes at least one pattern line, and
the inner scan only moves the actual cursor forward - so `match_vec` is
total there. -/
theorem c10_terminates (ps ss : List RLine) (_h : noConsecWild ps = true) :
    matchVecFuel (ps.length + 1) ps ss = some (matchVecAux ps ss) :=
  matchVecFuel_complete ps (ps.length + 1) (Nat.lt_succ_self _) ss

theorem c10_witness : matchVecFuel 2 [wildcard] [['a']] = some (some true) := by
  have h := c10_terminates [wildcard] [['a']] (by decide)
  exact h.trans (by decide)

end LangTester
